import Mathlib

/-!
# LogModule: the bounded in-memory log tail of pion-net

Shallow embedding of `src/modules/LogModule.cpp` (class `LogModuleAppender`):
the constructor, `addLogString` (append, then evict from the head while the
counter exceeds the maximum) and `writeLogEvents` (render the buffered events,
or a fixed line when no logging library is compiled in).

Conventions of the embedding
* `unsigned int` members are natural numbers; the increment `++m_num_events`
  is taken modulo `2 ^ 32`.
* `std::list<std::string>` is `List String`, head = `begin()`.
* `erase(begin())` on an empty list is undefined behaviour in C++; the
  embedding makes it the failure `none`.
* The mutex only serialises callers; a single call is modelled as one atomic
  state transition.
-/

namespace Pion

/-- Number of values of the C++ type `unsigned int` (32 bits wide). -/
def UINT_RANGE : Nat := 4294967296

/-- Static member `const unsigned int LogModuleAppender::DEFAULT_MAX_EVENTS = 25;` -/
def DEFAULT_MAX_EVENTS : Nat := 25

/-- Data members of `LogModuleAppender` that the buffer logic reads or writes. -/
structure LogModuleAppender where
  /-- maximum number of events cached in memory -/
  m_max_events : Nat
  /-- number of events currently cached in memory (maintained by hand) -/
  m_num_events : Nat
  /-- cache of pre-formatted log events, oldest first -/
  m_log_events : List String
deriving DecidableEq, Repr

namespace LogModuleAppender

/-- Constructor `LogModuleAppender::LogModuleAppender(void)`:
`m_max_events(DEFAULT_MAX_EVENTS), m_num_events(0)`, the list default-constructed. -/
def init : LogModuleAppender := ⟨DEFAULT_MAX_EVENTS, 0, []⟩

/-- The constructed state with `m_max_events` set to `c` instead of the default:
what the specification calls a freshly constructed buffer of capacity `c`. -/
def withCapacity (c : Nat) : LogModuleAppender := ⟨c, init.m_num_events, init.m_log_events⟩

/-- Statement `m_log_events.erase(m_log_events.begin())`: drops the head; undefined on an
empty list, rendered as `none`. -/
def eraseBegin : List String → Option (List String)
  | [] => none
  | _ :: rest => some rest

/-- The loop
```
while (m_num_events > m_max_events) {
    m_log_events.erase(m_log_events.begin());
    --m_num_events;
}
```
on the pair (counter, list). The recursion is on the counter: the guard
`m_num_events > m_max_events` can only hold for a counter of the form `n + 1`,
and the body replaces it by `n` (so `--` never wraps below zero). -/
def evictLoop (m_max_events : Nat) : Nat → List String → Option (Nat × List String)
  | 0, evs => some (0, evs)
  | n + 1, evs =>
    if n + 1 > m_max_events then
      match eraseBegin evs with
      | none => none
      | some rest => evictLoop m_max_events n rest
    else
      some (n + 1, evs)

/-- Member function `void LogModuleAppender::addLogString(const std::string& log_string)`:
`push_back`, `++m_num_events` (modulo `2 ^ 32`), then the eviction loop. -/
def addLogString (s : LogModuleAppender) (log_string : String) : Option LogModuleAppender :=
  let pushed := s.m_log_events ++ [log_string]
  let counted := (s.m_num_events + 1) % UINT_RANGE
  match evictLoop s.m_max_events counted pushed with
  | none => none
  | some (n, evs) => some ⟨s.m_max_events, n, evs⟩

/-- Successive `addLogString` calls, one per event, in list order. -/
def addLogStrings (s : LogModuleAppender) : List String → Option LogModuleAppender
  | [] => some s
  | e :: es =>
    match s.addLogString e with
    | none => none
    | some t => addLogStrings t es

end LogModuleAppender

/-- Build-time selection of the logging library: which of the three
preprocessor symbols are defined. -/
structure BuildConfig where
  PION_HAVE_LOG4CXX : Bool
  PION_HAVE_LOG4CPLUS : Bool
  PION_HAVE_LOG4CPP : Bool
deriving DecidableEq, Repr

/-- The condition of the `#if` in `writeLogEvents`:
`defined(PION_HAVE_LOG4CXX) || defined(PION_HAVE_LOG4CPLUS) || defined(PION_HAVE_LOG4CPP)`. -/
def BuildConfig.haveLogging (cfg : BuildConfig) : Bool :=
  cfg.PION_HAVE_LOG4CXX || cfg.PION_HAVE_LOG4CPLUS || cfg.PION_HAVE_LOG4CPP

/-- Modelled from the spec: `pion::HTTPResponse` and its `operator<<`
(libpion/HTTPResponse.hpp) are not part of the sources at hand. The response
is represented by the body text written to it so far, and `response << x`
appends the text `x` to that body. -/
def HTTPResponse.write (response : String) (data : String) : String := response ++ data

/-- Member function
`void LogModuleAppender::writeLogEvents(pion::HTTPResponsePtr& response)`.
With a logging library compiled in, every cached event is written in list
order; otherwise the fixed text followed by `HTTPTypes::STRING_CRLF`, a
constant of libpion that is not among the sources and is therefore a parameter.
The members of the appender are only read. -/
def LogModuleAppender.writeLogEvents (cfg : BuildConfig) (STRING_CRLF : String)
    (s : LogModuleAppender) (response : String) : String :=
  if cfg.haveLogging then
    s.m_log_events.foldl HTTPResponse.write response
  else
    HTTPResponse.write (HTTPResponse.write response "Logging is disabled.") STRING_CRLF

/-- One call made on an appender by its environment. -/
inductive LogCall where
  /-- the logging library delivers a formatted event -/
  | addLogString (log_string : String)
  /-- a request handler renders the log into a response holding `response` -/
  | writeLogEvents (response : String)
deriving DecidableEq, Repr

/-- Runs a sequence of calls on an appender, threading the members through and
collecting the body of every response written. `writeLogEvents` assigns no
member, so the appender after it is the appender before it. -/
def runCalls (cfg : BuildConfig) (STRING_CRLF : String) :
    LogModuleAppender → List LogCall → Option (LogModuleAppender × List String)
  | s, [] => some (s, [])
  | s, LogCall.addLogString e :: rest =>
    match s.addLogString e with
    | none => none
    | some t => runCalls cfg STRING_CRLF t rest
  | s, LogCall.writeLogEvents r :: rest =>
    match runCalls cfg STRING_CRLF s rest with
    | none => none
    | some (t, outs) => some (t, s.writeLogEvents cfg STRING_CRLF r :: outs)

/-- A build with log4cplus selected. -/
def log4cplusBuild : BuildConfig := ⟨false, true, false⟩

/-- A build with no logging library selected. -/
def noLoggingBuild : BuildConfig := ⟨false, false, false⟩

open LogModuleAppender

/-! ## Auxiliary facts about the eviction loop and the append step -/

/-- Erasing from an empty list is a failure of the embedding, and it can be
reached from a state whose counter overstates the list: maximum 0, counter 5,
no event held. -/
theorem addLogString_fails_on_inconsistent_state :
    (⟨0, 5, []⟩ : LogModuleAppender).addLogString "x" = none := rfl

/-- A zero counter never passes the loop test. -/
theorem evictLoop_zero (m : Nat) (evs : List String) :
    evictLoop m 0 evs = some (0, evs) := rfl

/-- The recursion on the counter is the loop of the source: test
`m_num_events > m_max_events`, erase the head, decrement, repeat. -/
theorem evictLoop_unfold (m n : Nat) (evs : List String) :
    evictLoop m n evs =
      if n > m then
        match eraseBegin evs with
        | none => none
        | some rest => evictLoop m (n - 1) rest
      else some (n, evs) := by
  cases n with
  | zero => simp [evictLoop]
  | succ k => simp only [evictLoop, Nat.add_sub_cancel]

/-- When the counter agrees with the length of the list, the loop never erases
from an empty list and stops with the last `min n m` elements. -/
theorem evictLoop_of_length (m : Nat) :
    ∀ (n : Nat) (evs : List String), evs.length = n →
      evictLoop m n evs = some (min n m, evs.drop (n - m)) := by
  intro n
  induction n with
  | zero => intro evs _; simp [evictLoop]
  | succ n ih =>
    intro evs h
    cases evs with
    | nil => simp at h
    | cons x rest =>
      have hr : rest.length = n := by simpa using h
      by_cases hgt : n + 1 > m
      · have h1 : min (n + 1) m = min n m := by omega
        have h2 : n + 1 - m = (n - m) + 1 := by omega
        simp [evictLoop, hgt, eraseBegin, ih rest hr, h1, h2]
      · have h1 : min (n + 1) m = n + 1 := by omega
        have h2 : n + 1 - m = 0 := by omega
        simp [evictLoop, hgt, h1, h2]

/-- The append step on a state whose counter agrees with the list and whose
increment does not wrap. -/
theorem addLogString_of_agree (s : LogModuleAppender) (e : String)
    (hagree : s.m_num_events = s.m_log_events.length)
    (hwrap : s.m_num_events + 1 < UINT_RANGE) :
    s.addLogString e = some ⟨s.m_max_events,
      min (s.m_log_events.length + 1) s.m_max_events,
      (s.m_log_events ++ [e]).drop (s.m_log_events.length + 1 - s.m_max_events)⟩ := by
  have hmod : (s.m_num_events + 1) % UINT_RANGE = s.m_log_events.length + 1 := by
    rw [Nat.mod_eq_of_lt hwrap, hagree]
  have hlen : (s.m_log_events ++ [e]).length = s.m_log_events.length + 1 := by simp
  simp only [addLogString, hmod, evictLoop_of_length s.m_max_events _ _ hlen]

/-- The append step on a state whose counter holds `2 ^ 32 - 1`: the increment
wraps to zero and the loop body is not entered. No run from the constructed
state comes near such a state, its counter never exceeds `DEFAULT_MAX_EVENTS`;
this is why the general forms below ask for a maximum under `2 ^ 32 - 1`. -/
theorem addLogString_of_wrap (s : LogModuleAppender) (e : String)
    (hwrap : (s.m_num_events + 1) % UINT_RANGE = 0) :
    s.addLogString e = some ⟨s.m_max_events, 0, s.m_log_events ++ [e]⟩ := by
  simp only [addLogString, hwrap, evictLoop_zero]

/-- A run of appends from a state within capacity whose counter agrees with the
list, when no increment of the run can wrap: either the capacity is below the
top of the `unsigned int` range or the run is too short to reach it. -/
theorem addLogStrings_of_agree :
    ∀ (evs : List String) (s : LogModuleAppender),
      s.m_num_events = s.m_log_events.length →
      s.m_log_events.length ≤ s.m_max_events →
      (s.m_max_events + 1 < UINT_RANGE ∨ s.m_log_events.length + evs.length < UINT_RANGE) →
      s.addLogStrings evs = some ⟨s.m_max_events,
        min (s.m_log_events.length + evs.length) s.m_max_events,
        (s.m_log_events ++ evs).drop (s.m_log_events.length + evs.length - s.m_max_events)⟩ := by
  intro evs
  induction evs with
  | nil =>
    intro s hagree hle _
    obtain ⟨m, n, xs⟩ := s
    simp only at hagree hle
    have h1 : min xs.length m = n := by omega
    have h2 : xs.length - m = 0 := by omega
    simp [addLogStrings, h1, h2]
  | cons e es ih =>
    intro s hagree hle hcap
    obtain ⟨m, n, xs⟩ := s
    simp only at hagree hle hcap
    have hes : (e :: es).length = es.length + 1 := rfl
    rw [hes] at hcap
    have hstep := addLogString_of_agree ⟨m, n, xs⟩ e hagree (by simp only; omega)
    simp only at hstep
    have hlen : ((xs ++ [e]).drop (xs.length + 1 - m)).length = min (xs.length + 1) m := by
      simp; omega
    have hnext := ih ⟨m, min (xs.length + 1) m, (xs ++ [e]).drop (xs.length + 1 - m)⟩
      (by simp only; exact hlen.symm) (by simp only; omega) (by simp only [hlen]; omega)
    simp only [hlen] at hnext
    simp only [addLogStrings, hstep, hnext]
    have h1 : min (min (xs.length + 1) m + es.length) m
        = min (xs.length + (e :: es).length) m := by simp; omega
    have h2 : (xs ++ [e]).drop (xs.length + 1 - m) ++ es
        = (xs ++ e :: es).drop (xs.length + 1 - m) := by
      rw [← List.drop_append_of_le_length (by simp)]; simp
    have h3 : xs.length + 1 - m + (min (xs.length + 1) m + es.length - m)
        = xs.length + (e :: es).length - m := by simp; omega
    rw [h1, h2, List.drop_drop]
    simp only [Option.some.injEq, LogModuleAppender.mk.injEq, true_and]
    rw [h3]

/-- A run of appends from the constructed state with maximum `c`, when no
increment of the run can wrap. -/
theorem addLogStrings_withCapacity (c : Nat) (evs : List String)
    (hcap : c + 1 < UINT_RANGE ∨ evs.length < UINT_RANGE) :
    (withCapacity c).addLogStrings evs
      = some ⟨c, min evs.length c, evs.drop (evs.length - c)⟩ := by
  have h := addLogStrings_of_agree evs (withCapacity c) rfl (Nat.zero_le _)
    (by simpa [withCapacity, init] using hcap)
  simpa [withCapacity, init] using h

/-- The append step keeps the counter equal to the length, the length within
the maximum, and the maximum itself, on every state where they hold and the
maximum is below the top of the `unsigned int` range. -/
theorem addLogString_preserves (s : LogModuleAppender) (e : String)
    (hagree : s.m_num_events = s.m_log_events.length)
    (hle : s.m_log_events.length ≤ s.m_max_events)
    (hcap : s.m_max_events + 1 < UINT_RANGE) :
    ∃ t, s.addLogString e = some t ∧ t.m_num_events = t.m_log_events.length ∧
      t.m_log_events.length ≤ t.m_max_events ∧ t.m_max_events = s.m_max_events := by
  refine ⟨_, addLogString_of_agree s e hagree (by omega), ?_, ?_, rfl⟩
  · simp; omega
  · simp; omega

/-- Writing a list of texts one after the other appends their concatenation. -/
theorem foldl_write_eq (l : List String) :
    ∀ r : String, l.foldl HTTPResponse.write r = r ++ String.join l := by
  induction l with
  | nil => intro r; simp [String.join]
  | cons x xs ih =>
    intro r
    have hj : String.join (x :: xs) = x ++ String.join xs := by
      have h := ih ("" ++ x)
      simp only [String.join, List.foldl_cons] at h ⊢
      simpa [HTTPResponse.write] using h
    rw [List.foldl_cons, ih, hj]
    simp [HTTPResponse.write, String.append_assoc]

/-- The default maximum is below the top of the `unsigned int` range. -/
theorem default_max_lt_range : DEFAULT_MAX_EVENTS + 1 < UINT_RANGE := by decide

/-- Every run of appends from the constructed state succeeds, and the state it
reaches holds the last `min n 25` of the `n` events, counted correctly. -/
theorem addLogStrings_init (evs : List String) :
    init.addLogStrings evs = some ⟨DEFAULT_MAX_EVENTS, min evs.length DEFAULT_MAX_EVENTS,
      evs.drop (evs.length - DEFAULT_MAX_EVENTS)⟩ :=
  addLogStrings_withCapacity DEFAULT_MAX_EVENTS evs (Or.inl default_max_lt_range)

/-- With a logging library compiled in, the response after `writeLogEvents`
is the response before it followed by the concatenated events. -/
theorem writeLogEvents_enabled_aux (cfg : BuildConfig) (STRING_CRLF : String)
    (s : LogModuleAppender) (response : String) (hcfg : cfg.haveLogging = true) :
    s.writeLogEvents cfg STRING_CRLF response = response ++ String.join s.m_log_events := by
  simp only [LogModuleAppender.writeLogEvents, hcfg, if_true, foldl_write_eq]

/-- Whenever `addLogString` succeeds, it leaves `m_max_events` as it was. -/
theorem addLogString_max_events (s t : LogModuleAppender) (e : String)
    (h : s.addLogString e = some t) : t.m_max_events = s.m_max_events := by
  unfold addLogString at h
  simp only at h
  cases hloop : evictLoop s.m_max_events ((s.m_num_events + 1) % UINT_RANGE)
      (s.m_log_events ++ [e]) with
  | none => rw [hloop] at h; simp at h
  | some p =>
    rw [hloop] at h
    simp only [Option.some.injEq] at h
    rw [← h]

/-- Every sequence of calls on a state whose counter agrees with its list,
within a maximum below the top of the `unsigned int` range, runs to the end and
leaves `m_max_events` as it was. -/
theorem runCalls_max_events (cfg : BuildConfig) (STRING_CRLF : String) :
    ∀ (calls : List LogCall) (s : LogModuleAppender),
      s.m_num_events = s.m_log_events.length →
      s.m_log_events.length ≤ s.m_max_events →
      s.m_max_events + 1 < UINT_RANGE →
      ∃ t outs, runCalls cfg STRING_CRLF s calls = some (t, outs) ∧
        t.m_max_events = s.m_max_events := by
  intro calls
  induction calls with
  | nil => intro s _ _ _; exact ⟨s, [], rfl, rfl⟩
  | cons call rest ih =>
    intro s hagree hle hcap
    cases call with
    | addLogString e =>
      obtain ⟨t, ht, h1, h2, h3⟩ := addLogString_preserves s e hagree hle hcap
      obtain ⟨u, outs, hu, hmax⟩ := ih t h1 h2 (by rw [h3]; exact hcap)
      exact ⟨u, outs, by simp only [runCalls, ht, hu], hmax.trans h3⟩
    | writeLogEvents r =>
      obtain ⟨u, outs, hu, hmax⟩ := ih s hagree hle hcap
      exact ⟨u, s.writeLogEvents cfg STRING_CRLF r :: outs, by simp only [runCalls, hu], hmax⟩

/-- With no logging library selected and an empty response, the rendered text
is the bare string exactly when the line terminator is empty. -/
theorem writeLogEvents_disabled_bare_iff (STRING_CRLF : String) (s : LogModuleAppender) :
    s.writeLogEvents noLoggingBuild STRING_CRLF "" = "Logging is disabled."
      ↔ STRING_CRLF = "" := by
  have h : s.writeLogEvents noLoggingBuild STRING_CRLF ""
      = "Logging is disabled." ++ STRING_CRLF := by
    simp [LogModuleAppender.writeLogEvents, noLoggingBuild, BuildConfig.haveLogging,
      HTTPResponse.write]
  rw [h]
  constructor
  · intro heq
    have hd := congrArg String.data heq
    rw [String.data_append] at hd
    have hnil : STRING_CRLF.data = [] := List.append_right_eq_self.mp hd
    exact String.ext hnil
  · intro hnil
    rw [hnil, String.append_empty]

/-- The single append step in general form: on a state whose counter equals
the length of the list and whose increment stays inside the `unsigned int`
range, the event goes to the tail, the oldest event leaves exactly when the
list was at the maximum, and the counter becomes `min (length + 1) maximum`. -/
theorem addLogString_step_of_agree (s : LogModuleAppender) (e : String)
    (hagree : s.m_num_events = s.m_log_events.length)
    (hwrap : s.m_log_events.length + 1 < UINT_RANGE) :
    ∃ t, s.addLogString e = some t ∧ t.m_max_events = s.m_max_events ∧
      (s.m_log_events.length < s.m_max_events → t.m_log_events = s.m_log_events ++ [e]) ∧
      (s.m_log_events.length = s.m_max_events → 1 ≤ s.m_max_events →
        t.m_log_events = s.m_log_events.tail ++ [e]) ∧
      t.m_num_events = min (s.m_log_events.length + 1) s.m_max_events := by
  refine ⟨_, addLogString_of_agree s e hagree (by omega), rfl, ?_, ?_, rfl⟩
  · intro hlt
    have h0 : s.m_log_events.length + 1 - s.m_max_events = 0 := by omega
    simp only [h0, List.drop_zero]
  · intro heq hpos
    have h1 : s.m_log_events.length + 1 - s.m_max_events = 1 := by omega
    simp only [h1]
    cases hxs : s.m_log_events with
    | nil => rw [hxs] at heq; simp at heq; omega
    | cons x xs => simp

/-! ## The claims -/

/-- C1: FIFO eviction. Appending `capacity + k` events in order to a freshly
constructed buffer succeeds and leaves exactly the last `capacity` events, in
arrival order, with the counter at `capacity`. First for the buffer the
constructor builds (capacity `DEFAULT_MAX_EVENTS = 25`), for every `k` and
every list of `25 + k` events, with no side condition. Then for the constructed
state with any other maximum `c`, `1 ≤ c`, that an `unsigned int` holds with
room for the increment (`c + 1 < 2 ^ 32`), which covers the capacity 3 of the
specification's scenario. -/
theorem fifo_eviction :
    (∀ (k : Nat) (evs : List String), evs.length = DEFAULT_MAX_EVENTS + k →
      init.addLogStrings evs
        = some ⟨DEFAULT_MAX_EVENTS, DEFAULT_MAX_EVENTS, evs.drop k⟩) ∧
    (∀ (c k : Nat) (evs : List String), 1 ≤ c → c + 1 < UINT_RANGE →
      evs.length = c + k →
      (withCapacity c).addLogStrings evs = some ⟨c, c, evs.drop k⟩) := by
  have hgen : ∀ (c k : Nat) (evs : List String), c + 1 < UINT_RANGE →
      evs.length = c + k →
      (withCapacity c).addLogStrings evs = some ⟨c, c, evs.drop k⟩ := by
    intro c k evs hcap hlen
    have h := addLogStrings_withCapacity c evs (Or.inl hcap)
    have h1 : min evs.length c = c := by omega
    have h2 : evs.length - c = k := by omega
    rw [h1, h2] at h
    exact h
  refine ⟨?_, ?_⟩
  · intro k evs hlen
    exact hgen DEFAULT_MAX_EVENTS k evs default_max_lt_range hlen
  · intro c k evs _ hcap hlen
    exact hgen c k evs hcap hlen

/-- C1, the scenario of the specification (capacity 3: appending a, b, c, d
leaves b, c, d and appending e after them leaves c, d, e), and the constructed
buffer of capacity 25 after 27 events, which has dropped the two oldest. -/
theorem fifo_eviction_witness :
    (withCapacity 3).addLogStrings ["a", "b", "c", "d"] = some ⟨3, 3, ["b", "c", "d"]⟩ ∧
    (withCapacity 3).addLogStrings ["a", "b", "c", "d", "e"] = some ⟨3, 3, ["c", "d", "e"]⟩ ∧
    init.addLogStrings (["x", "y"] ++ List.replicate 24 "m" ++ ["z"])
      = some ⟨25, 25, "m" :: List.replicate 23 "m" ++ ["z"]⟩ :=
  ⟨fifo_eviction.2 3 1 ["a", "b", "c", "d"] (by decide) (by decide) rfl,
   fifo_eviction.2 3 2 ["a", "b", "c", "d", "e"] (by decide) (by decide) rfl,
   fifo_eviction.1 2 (["x", "y"] ++ List.replicate 24 "m" ++ ["z"]) rfl⟩

/-- C2: capacity invariant. After each call of any finite sequence of
`addLogString` calls on a freshly constructed buffer (that is, after every
prefix `evs.take n` of the sequence), the call has succeeded and both the
number of events held in the list, which is the number `writeLogEvents`
writes, and the counter are at most `m_max_events`. -/
theorem capacity_invariant (evs : List String) (n : Nat) :
    ∃ t, init.addLogStrings (evs.take n) = some t ∧
      t.m_log_events.length ≤ t.m_max_events ∧ t.m_num_events ≤ t.m_max_events := by
  refine ⟨_, addLogStrings_init (evs.take n), ?_, ?_⟩
  · simp only [List.length_drop]; omega
  · exact Nat.min_le_right _ _

/-- C3: single append step. `addLogString e` puts `e` at the tail and removes
from the head until the counter is back at the capacity: below capacity the
new contents are `xs ++ [e]`, at capacity they are `xs.tail ++ [e]` (the oldest
event, and only it, evicted), and the new counter is
`min (length xs + 1) capacity`; the capacity is kept. First on every state a
run of appends from the constructed buffer reaches: such a state has counter
equal to the length, length within the capacity, capacity at least 1 and an
increment that does not wrap, and the step holds there with no side condition.
Then on every state at all with counter equal to the length, length within
the capacity, capacity at least 1 and `length xs + 1 < 2 ^ 32`. -/
theorem addLogString_step :
    (∀ evs : List String, ∃ s, init.addLogStrings evs = some s ∧
      s.m_num_events = s.m_log_events.length ∧
      s.m_log_events.length ≤ s.m_max_events ∧ 1 ≤ s.m_max_events ∧
      s.m_num_events + 1 < UINT_RANGE ∧
      ∀ e : String, ∃ t, s.addLogString e = some t ∧ t.m_max_events = s.m_max_events ∧
        (s.m_log_events.length < s.m_max_events → t.m_log_events = s.m_log_events ++ [e]) ∧
        (s.m_log_events.length = s.m_max_events →
          t.m_log_events = s.m_log_events.tail ++ [e]) ∧
        t.m_num_events = min (s.m_log_events.length + 1) s.m_max_events) ∧
    (∀ (s : LogModuleAppender) (e : String),
      s.m_num_events = s.m_log_events.length →
      s.m_log_events.length ≤ s.m_max_events →
      1 ≤ s.m_max_events →
      s.m_log_events.length + 1 < UINT_RANGE →
      ∃ t, s.addLogString e = some t ∧ t.m_max_events = s.m_max_events ∧
        (s.m_log_events.length < s.m_max_events → t.m_log_events = s.m_log_events ++ [e]) ∧
        (s.m_log_events.length = s.m_max_events →
          t.m_log_events = s.m_log_events.tail ++ [e]) ∧
        t.m_num_events = min (s.m_log_events.length + 1) s.m_max_events) := by
  refine ⟨?_, ?_⟩
  · intro evs
    have hlen : (evs.drop (evs.length - DEFAULT_MAX_EVENTS)).length
        = min evs.length DEFAULT_MAX_EVENTS := by
      simp only [List.length_drop]; omega
    have hmax : DEFAULT_MAX_EVENTS = 25 := rfl
    have hrange : UINT_RANGE = 4294967296 := rfl
    have hroom : (evs.drop (evs.length - DEFAULT_MAX_EVENTS)).length + 1 < UINT_RANGE := by
      rw [hlen, hmax, hrange]; omega
    refine ⟨_, addLogStrings_init evs, hlen.symm, ?_, ?_, ?_, ?_⟩
    · simp only [hlen]; exact Nat.min_le_right _ _
    · simp only [hmax]; omega
    · simp only [hmax, hrange]; omega
    · intro e
      obtain ⟨t, ht, hcap, hbelow, hfull, hcount⟩ := addLogString_step_of_agree
        ⟨DEFAULT_MAX_EVENTS, min evs.length DEFAULT_MAX_EVENTS,
          evs.drop (evs.length - DEFAULT_MAX_EVENTS)⟩ e hlen.symm hroom
      exact ⟨t, ht, hcap, hbelow, fun heq => hfull heq (by simp only [hmax]; omega), hcount⟩
  · intro s e hagree _ hpos hwrap
    obtain ⟨t, ht, hcap, hbelow, hfull, hcount⟩ := addLogString_step_of_agree s e hagree hwrap
    exact ⟨t, ht, hcap, hbelow, fun heq => hfull heq hpos, hcount⟩

/-- C3 at a below-capacity state and at a full state of capacity 3. -/
theorem addLogString_step_witness :
    (∃ t, (⟨3, 2, ["a", "b"]⟩ : LogModuleAppender).addLogString "c" = some t ∧
      t.m_max_events = 3 ∧
      ((2 : Nat) < 3 → t.m_log_events = ["a", "b"] ++ ["c"]) ∧
      ((2 : Nat) = 3 → t.m_log_events = ["a", "b"].tail ++ ["c"]) ∧
      t.m_num_events = min (2 + 1) 3) ∧
    (∃ t, (⟨3, 3, ["a", "b", "c"]⟩ : LogModuleAppender).addLogString "d" = some t ∧
      t.m_max_events = 3 ∧
      ((3 : Nat) < 3 → t.m_log_events = ["a", "b", "c"] ++ ["d"]) ∧
      ((3 : Nat) = 3 → t.m_log_events = ["a", "b", "c"].tail ++ ["d"]) ∧
      t.m_num_events = min (3 + 1) 3) :=
  ⟨addLogString_step.2 ⟨3, 2, ["a", "b"]⟩ "c" rfl (by decide) (by decide) (by decide),
   addLogString_step.2 ⟨3, 3, ["a", "b", "c"]⟩ "d" rfl (by decide) (by decide) (by decide)⟩

/-- C4: rendered read path. With a logging library compiled in, on every
buffer state `writeLogEvents` appends to the response exactly the
concatenation of the buffered events, verbatim and in arrival order, with
nothing between or after them; on an empty buffer it appends nothing. -/
theorem writeLogEvents_enabled (cfg : BuildConfig) (STRING_CRLF : String)
    (s : LogModuleAppender) (response : String) (hcfg : cfg.haveLogging = true) :
    s.writeLogEvents cfg STRING_CRLF response = response ++ String.join s.m_log_events ∧
    (s.m_log_events = [] → s.writeLogEvents cfg STRING_CRLF response = response) := by
  have h := writeLogEvents_enabled_aux cfg STRING_CRLF s response hcfg
  refine ⟨h, ?_⟩
  intro hnil
  rw [h, hnil]
  simp [String.join]

/-- C4 on a buffer of three terminated lines and on the constructed buffer,
in a log4cplus build. -/
theorem writeLogEvents_enabled_witness :
    ((⟨3, 3, ["b\n", "c\n", "d\n"]⟩ : LogModuleAppender).writeLogEvents log4cplusBuild "\r\n" "x"
        = "x" ++ String.join ["b\n", "c\n", "d\n"] ∧
      ((["b\n", "c\n", "d\n"] : List String) = [] →
        (⟨3, 3, ["b\n", "c\n", "d\n"]⟩ : LogModuleAppender).writeLogEvents
          log4cplusBuild "\r\n" "x" = "x")) ∧
    "x" ++ String.join ["b\n", "c\n", "d\n"] = "xb\nc\nd\n" :=
  ⟨writeLogEvents_enabled log4cplusBuild "\r\n" ⟨3, 3, ["b\n", "c\n", "d\n"]⟩ "x" rfl,
   by decide⟩

/-- C5 (amended): disabled read path. When none of the three logging
libraries is selected, on every buffer state `writeLogEvents` appends to the
response the text `Logging is disabled.` followed by `HTTPTypes::STRING_CRLF`. -/
theorem writeLogEvents_disabled (cfg : BuildConfig) (STRING_CRLF : String)
    (s : LogModuleAppender) (response : String) (hcfg : cfg.haveLogging = false) :
    s.writeLogEvents cfg STRING_CRLF response
      = response ++ "Logging is disabled." ++ STRING_CRLF := by
  simp [LogModuleAppender.writeLogEvents, hcfg, HTTPResponse.write]

/-- C5 on the constructed buffer and an empty response, with the line
terminator being carriage return and line feed. -/
theorem writeLogEvents_disabled_witness :
    init.writeLogEvents noLoggingBuild "\r\n" "" = "" ++ "Logging is disabled." ++ "\r\n" :=
  writeLogEvents_disabled noLoggingBuild "\r\n" init "" rfl

/-- C5 as stated fails: on a fresh buffer with no logging library selected the
rendered text is not the bare string, the line terminator follows it. -/
theorem writeLogEvents_disabled_not_bare :
    init.writeLogEvents noLoggingBuild "\r\n" "" ≠ "Logging is disabled." := by
  decide

/-- C6: append and read never fail. For every state reachable from
construction by `addLogString` calls: the run that reaches it succeeds, one
more `addLogString` with any event succeeds (the eviction loop, a total
function, never erases from an empty list, and a full buffer gives a state,
not a failure), and `writeLogEvents` returns the response extended by some
text in every build. -/
theorem append_and_read_never_fail (evs : List String) :
    ∃ s, init.addLogStrings evs = some s ∧
      (∀ e : String, ∃ t, s.addLogString e = some t) ∧
      (∀ (cfg : BuildConfig) (STRING_CRLF response : String),
        ∃ written, s.writeLogEvents cfg STRING_CRLF response = response ++ written) := by
  refine ⟨_, addLogStrings_init evs, ?_, ?_⟩
  · intro e
    have hlen : (evs.drop (evs.length - DEFAULT_MAX_EVENTS)).length
        = min evs.length DEFAULT_MAX_EVENTS := by
      simp only [List.length_drop]; omega
    obtain ⟨t, ht, _⟩ := addLogString_preserves
      ⟨DEFAULT_MAX_EVENTS, min evs.length DEFAULT_MAX_EVENTS,
        evs.drop (evs.length - DEFAULT_MAX_EVENTS)⟩ e hlen.symm
      (by simp only [hlen]; exact Nat.min_le_right _ _) default_max_lt_range
    exact ⟨t, ht⟩
  · intro cfg crlf r
    cases hcfg : cfg.haveLogging with
    | true => exact ⟨_, (writeLogEvents_enabled_aux cfg crlf _ r hcfg)⟩
    | false =>
      refine ⟨"Logging is disabled." ++ crlf, ?_⟩
      simp [LogModuleAppender.writeLogEvents, hcfg, HTTPResponse.write, String.append_assoc]

/-- C7: emptiness. The constructed appender has `m_num_events = 0` and an
empty `m_log_events`, so a read before any append sees no event: with a
logging library compiled in, `writeLogEvents` leaves the response as it was. -/
theorem init_is_empty :
    init.m_num_events = 0 ∧ init.m_log_events = [] ∧
    ∀ (cfg : BuildConfig) (STRING_CRLF response : String), cfg.haveLogging = true →
      init.writeLogEvents cfg STRING_CRLF response = response := by
  refine ⟨rfl, rfl, ?_⟩
  intro cfg crlf r hcfg
  simp [LogModuleAppender.writeLogEvents, hcfg, init]

/-- C7 read in a log4cplus build with an empty response. -/
theorem init_is_empty_witness :
    init.writeLogEvents log4cplusBuild "\r\n" "" = "" :=
  init_is_empty.2.2 log4cplusBuild "\r\n" "" rfl

/-- C8: capacity is fixed. The constructed appender has
`m_max_events = 25 = DEFAULT_MAX_EVENTS`; every sequence of `addLogString` and
`writeLogEvents` calls on it runs to the end and leaves `m_max_events = 25`;
and on any state at all a successful `addLogString` keeps `m_max_events`. -/
theorem capacity_fixed :
    init.m_max_events = 25 ∧ DEFAULT_MAX_EVENTS = 25 ∧
    (∀ (cfg : BuildConfig) (STRING_CRLF : String) (calls : List LogCall),
      ∃ t outs, runCalls cfg STRING_CRLF init calls = some (t, outs) ∧ t.m_max_events = 25) ∧
    (∀ (s t : LogModuleAppender) (e : String),
      s.addLogString e = some t → t.m_max_events = s.m_max_events) := by
  refine ⟨rfl, rfl, ?_, addLogString_max_events⟩
  intro cfg crlf calls
  exact runCalls_max_events cfg crlf calls init rfl (Nat.zero_le _) default_max_lt_range

/-- C8 on a run mixing appends and reads, and on one append to a full buffer. -/
theorem capacity_fixed_witness :
    (∃ t outs, runCalls log4cplusBuild "\r\n" init
        [LogCall.addLogString "a\n", LogCall.writeLogEvents "", LogCall.addLogString "b\n"]
          = some (t, outs) ∧ t.m_max_events = 25) ∧
    (⟨3, 3, ["b", "c", "d"]⟩ : LogModuleAppender).m_max_events
      = (⟨3, 3, ["a", "b", "c"]⟩ : LogModuleAppender).m_max_events :=
  ⟨capacity_fixed.2.2.1 log4cplusBuild "\r\n" _,
   capacity_fixed.2.2.2 ⟨3, 3, ["a", "b", "c"]⟩ ⟨3, 3, ["b", "c", "d"]⟩ "d" rfl⟩

/-- C10: counter and list agree. `m_num_events` equals the length of
`m_log_events` in the constructed state; `addLogString` succeeds and preserves
the equality for every event on every state where it holds and
`m_num_events + 1` does not wrap; the increment does not wrap whenever
`m_num_events ≤ m_max_events < 2 ^ 32 - 1`; hence the equality holds in every
state reachable from construction. -/
theorem counter_agrees_with_list :
    init.m_num_events = init.m_log_events.length ∧
    (∀ (s : LogModuleAppender) (e : String),
      s.m_num_events = s.m_log_events.length → s.m_num_events + 1 < UINT_RANGE →
      ∃ t, s.addLogString e = some t ∧ t.m_num_events = t.m_log_events.length) ∧
    (∀ s : LogModuleAppender,
      s.m_num_events ≤ s.m_max_events → s.m_max_events < UINT_RANGE - 1 →
      s.m_num_events + 1 < UINT_RANGE) ∧
    (∀ evs : List String,
      ∃ t, init.addLogStrings evs = some t ∧ t.m_num_events = t.m_log_events.length) := by
  refine ⟨rfl, ?_, ?_, ?_⟩
  · intro s e hagree hwrap
    refine ⟨_, addLogString_of_agree s e hagree hwrap, ?_⟩
    simp; omega
  · intro s h1 h2
    omega
  · intro evs
    refine ⟨_, addLogStrings_init evs, ?_⟩
    simp only [List.length_drop]; omega

/-- C10 on a full buffer of capacity 3 and on a buffer already over its
capacity, where the loop evicts twice. -/
theorem counter_agrees_with_list_witness :
    (∃ t, (⟨3, 3, ["a", "b", "c"]⟩ : LogModuleAppender).addLogString "d" = some t ∧
      t.m_num_events = t.m_log_events.length) ∧
    (∃ t, (⟨1, 2, ["a", "b"]⟩ : LogModuleAppender).addLogString "c" = some t ∧
      t.m_num_events = t.m_log_events.length) :=
  ⟨counter_agrees_with_list.2.1 ⟨3, 3, ["a", "b", "c"]⟩ "d" rfl (by decide),
   counter_agrees_with_list.2.1 ⟨1, 2, ["a", "b"]⟩ "c" rfl (by decide)⟩

end Pion
